import Mathlib

/-!
Shallow embedding of the alx-polly polling application's voting/validation
core (src/app/lib/actions/admin-actions.ts) and its sanitization utilities
(lib/sanitize utilities), together with proofs of the specification claims.

Strings are modelled as `String`/`List Char`; the JavaScript regular
expression replaces are modelled by explicit left-to-right scanning
functions with the same match semantics (global, non-overlapping,
case-insensitive where the source uses the `i` flag).  JavaScript
`Math.round` on the non-negative quotient `count/total*100` is modelled by
exact rational rounding (round half towards positive infinity).
-/

namespace Polly

/-- JS whitespace characters relevant to `trim()` and `\s` (ASCII part). -/
def isJsSpace (c : Char) : Bool :=
  c = ' ' || c = '\t' || c = '\n' || c = '\r' || c = '\x0b' || c = '\x0c'

/-- JS `\w` word characters: `[A-Za-z0-9_]`. -/
def isWordCharB (c : Char) : Bool :=
  ('a' ≤ c && c ≤ 'z') || ('A' ≤ c && c ≤ 'Z') || ('0' ≤ c && c ≤ '9') || c = '_'

/-- Uppercase variant of an ASCII lowercase letter (identity otherwise);
used to model case-insensitive (`/i`) matching of lowercase patterns. -/
def upcase (c : Char) : Char :=
  if 'a' ≤ c ∧ c ≤ 'z' then Char.ofNat (c.toNat - 32) else c

/-- Case-insensitive character match: pattern character `p` (given in
lowercase) matches `c` iff `c` is `p` or its uppercase form. -/
def ciEq (p c : Char) : Bool := c = p || c = upcase p

/-- Case-insensitive prefix test for a lowercase pattern. -/
def ciIsPrefix : List Char → List Char → Bool
  | [], _ => true
  | _ :: _, [] => false
  | p :: ps, c :: cs => ciEq p c && ciIsPrefix ps cs

/-- `trim()`: remove leading and trailing whitespace. -/
def trimChars (s : List Char) : List Char :=
  ((s.dropWhile isJsSpace).reverse.dropWhile isJsSpace).reverse

/-- The characters removed by `replace(/[<>"'&]/g, '')`. -/
def dangerChars : List Char := ['<', '>', '"', '\'', '&']

/-- Global replace of the character class `[<>"'&]` by the empty string. -/
def removeDangerChars (s : List Char) : List Char :=
  s.filter (fun c => !(dangerChars.contains c))

/-- The pattern of `replace(/javascript:/gi, '')`, in lowercase. -/
def jsPat : List Char := ['j', 'a', 'v', 'a', 's', 'c', 'r', 'i', 'p', 't', ':']

/-- Worker for the global case-insensitive replace of `javascript:` by
the empty string: scan left to right; `skip` counts characters still to
be consumed silently because they belong to the match found at an earlier
position.  On a fresh match the current character plus the next ten are
dropped. -/
def stripJsAux : Nat → List Char → List Char
  | _, [] => []
  | skip + 1, _ :: rest => stripJsAux skip rest
  | 0, c :: rest =>
    if ciIsPrefix jsPat (c :: rest) then stripJsAux 10 rest
    else c :: stripJsAux 0 rest

/-- Global case-insensitive replace of `replace(/javascript:/gi, '')`. -/
def stripJs (s : List Char) : List Char := stripJsAux 0 s

/-- Length of the maximal run of word characters at the front. -/
def wordRun : List Char → Nat
  | [] => 0
  | c :: rest => if isWordCharB c then wordRun rest + 1 else 0

/-- Length of the match of `/on\w+=/i` at the front of `s`, if any: `on`
(case-insensitive), then a maximal non-empty word-character run, then `=`. -/
def onMatchLen (s : List Char) : Option Nat :=
  match s with
  | c1 :: c2 :: rest =>
    if ciEq 'o' c1 && ciEq 'n' c2 then
      let k := wordRun rest
      if 1 ≤ k ∧ (rest.drop k).head? = some '=' then some (2 + k + 1) else none
    else none
  | _ => none

/-- Worker for the global case-insensitive replace of `/on\w+=/g` by the
empty string: `skip` counts characters of an earlier match still to be
consumed silently; on a fresh match of length `k` the current character
plus the next `k - 1` are dropped. -/
def stripOnAux : Nat → List Char → List Char
  | _, [] => []
  | skip + 1, _ :: rest => stripOnAux skip rest
  | 0, c :: rest =>
    match onMatchLen (c :: rest) with
    | some k => stripOnAux (k - 1) rest
    | none => c :: stripOnAux 0 rest

/-- Global case-insensitive replace of `replace(/on\w+=/gi, '')`. -/
def stripOn (s : List Char) : List Char := stripOnAux 0 s

/-- Worker for the global replace of `/<[^>]*>/g` by the empty string:
when `inTag` is set the scan is inside a match and consumes characters
silently up to and including the first `>`.  A `<` is only the start of a
match when a `>` follows somewhere (otherwise the regex does not match
there). -/
def stripTagsAux : Bool → List Char → List Char
  | _, [] => []
  | true, c :: rest =>
    if c = '>' then stripTagsAux false rest else stripTagsAux true rest
  | false, c :: rest =>
    if c = '<' ∧ rest.contains '>' then stripTagsAux true rest
    else c :: stripTagsAux false rest

/-- Global replace of `replace(/<[^>]*>/g, '')`. -/
def stripTags (s : List Char) : List Char := stripTagsAux false s

/-- The sanitization pipeline of `validateAndSanitizeInput`: remove
`[<>"'&]`, then `javascript:` (ci), then `on\w+=` (ci). -/
def sanitizeSteps (s : List Char) : List Char :=
  stripOn (stripJs (removeDangerChars s))

/-- `validateAndSanitizeInput(input, maxLength, fieldName)` from
admin-actions.ts: required, non-empty after trim, length-bounded, then
sanitized.  `Except.error` carries the error message. -/
def validateAndSanitizeInput (input : String) (maxLength : Nat) (fieldName : String) :
    Except String String :=
  if input = "" then .error (fieldName ++ " is required.")
  else
    let trimmed := trimChars input.data
    if trimmed.length = 0 then .error (fieldName ++ " cannot be empty.")
    else if maxLength < trimmed.length then
      .error (fieldName ++ " must be " ++ toString maxLength ++ " characters or less.")
    else .ok (String.mk (sanitizeSteps trimmed))

/-- Characters kept by `replace(/[^\w\s-_.]/g, '')`: word characters,
whitespace, hyphen, underscore, dot. -/
def isUrlSafeChar (c : Char) : Bool :=
  isWordCharB c || isJsSpace c || c = '-' || c = '_' || c = '.'

/-- Global replace of `[^\w\s-_.]` by the empty string. -/
def keepUrlChars (s : List Char) : List Char := s.filter isUrlSafeChar

/-- `sanitizeForUrl` from the sanitize utilities: strip HTML tags, delete
`[<>"'&]`, strip `javascript:` (ci), strip `on\w+=` (ci), keep only
URL-safe characters, trim.  Empty input short-circuits to the empty
string. -/
def sanitizeForUrl (input : String) : String :=
  if input = "" then ""
  else String.mk (trimChars (keepUrlChars (stripOn (stripJs (removeDangerChars (stripTags input.data))))))

/-- Case-insensitive substring scan for a lowercase literal pattern. -/
def containsSubCI (pat : List Char) : List Char → Bool
  | [] => ciIsPrefix pat []
  | c :: rest => ciIsPrefix pat (c :: rest) || containsSubCI pat rest

/-- Scan for `/<tag[^>]*>/i`: a (ci) occurrence of `tag` followed by a `>`
somewhere after it. -/
def containsTagCI (tag : List Char) : List Char → Bool
  | [] => false
  | c :: rest =>
    (ciIsPrefix tag (c :: rest) && ((c :: rest).drop tag.length).contains '>') ||
      containsTagCI tag rest

/-- Scan for `/on\w+=/i` anywhere in the string. -/
def containsOnCI : List Char → Bool
  | [] => false
  | c :: rest => (onMatchLen (c :: rest)).isSome || containsOnCI rest

def scriptOpenPat : List Char := ['<', 's', 'c', 'r', 'i', 'p', 't']

def scriptClosePat : List Char := ['<', '/', 's', 'c', 'r', 'i', 'p', 't', '>']

def iframePat : List Char := ['<', 'i', 'f', 'r', 'a', 'm', 'e']

def objectPat : List Char := ['<', 'o', 'b', 'j', 'e', 'c', 't']

def embedPat : List Char := ['<', 'e', 'm', 'b', 'e', 'd']

def linkPat : List Char := ['<', 'l', 'i', 'n', 'k']

def metaPat : List Char := ['<', 'm', 'e', 't', 'a']

/-- Some dangerous pattern of `isTextSafe` matches the string. -/
def dangerousHit (t : List Char) : Bool :=
  containsTagCI scriptOpenPat t || containsSubCI scriptClosePat t || containsSubCI jsPat t ||
    containsOnCI t || containsTagCI iframePat t || containsTagCI objectPat t ||
    containsTagCI embedPat t || containsTagCI linkPat t || containsTagCI metaPat t

/-- `isTextSafe` from the sanitize utilities: falsy input (the empty
string) reports `false`; otherwise the string is safe iff no dangerous
pattern matches. -/
def isTextSafe (input : String) : Bool :=
  if input = "" then false else !(dangerousHit input.data)

/-- An authenticated user as handed over by the identity provider. -/
structure User where
  id : String
  email : String
deriving DecidableEq, Repr

/-- A row of the `polls` table. -/
structure Poll where
  id : String
  user_id : String
  question : String
  options : List String
deriving DecidableEq, Repr

/-- A row of the `votes` table. -/
structure Vote where
  poll_id : String
  user_id : Option String
  option_index : Int
deriving DecidableEq, Repr

/-- The backing store: the two tables the actions touch. -/
structure DB where
  polls : List Poll
  votes : List Vote
deriving DecidableEq, Repr

/-- The option-validation loop of `createPoll`/`updatePoll`: validate each
option with limit 200 and field name `Option i+1`, first failure wins. -/
def validateOptionsLoop : List String → Nat → Except String (List String)
  | [], _ => .ok []
  | o :: rest, i =>
    match validateAndSanitizeInput o 200 ("Option " ++ toString (i + 1)) with
    | .error e => .error e
    | .ok s =>
      match validateOptionsLoop rest (i + 1) with
      | .error e => .error e
      | .ok ss => .ok (s :: ss)

/-- The shared validation block of `createPoll` and `updatePoll`:
question, option count bounds (after discarding falsy entries, as
`filter(Boolean)` does), per-option validation, and the `Set`-based
duplicate check on the sanitized options. -/
def validatePollInput (questionRaw : String) (optionsRaw : List String) :
    Except String (String × List String) :=
  let opts := optionsRaw.filter (fun o => o ≠ "")
  match validateAndSanitizeInput questionRaw 500 "Question" with
  | .error e => .error e
  | .ok question =>
    if opts.length < 2 then .error "Please provide at least two options."
    else if 10 < opts.length then .error "Maximum 10 options allowed."
    else
      match validateOptionsLoop opts 0 with
      | .error e => .error e
      | .ok options =>
        if options.Nodup then .ok (question, options)
        else .error "Duplicate options are not allowed."

/-- `createPoll`: validation, then the authentication check, then the
insert; `newId` stands for the row id the store generates. -/
def createPoll (db : DB) (currentUser : Option User) (newId : String)
    (questionRaw : String) (optionsRaw : List String) : Option String × DB :=
  match validatePollInput questionRaw optionsRaw with
  | .error e => (some e, db)
  | .ok qo =>
    match currentUser with
    | none => (some "You must be logged in to create a poll.", db)
    | some user => (none, { db with polls := db.polls ++ [⟨newId, user.id, qo.1, qo.2⟩] })

/-- `updatePoll`: validation, authentication, then an update filtered by
both `id = pollId` and `user_id = user.id`; a filter matching no row is
not an error for the store, so the action reports success regardless. -/
def updatePoll (db : DB) (currentUser : Option User) (pollId : String)
    (questionRaw : String) (optionsRaw : List String) : Option String × DB :=
  match validatePollInput questionRaw optionsRaw with
  | .error e => (some e, db)
  | .ok qo =>
    match currentUser with
    | none => (some "You must be logged in to update a poll.", db)
    | some user =>
      (none, { db with polls := db.polls.map (fun p =>
        if p.id = pollId ∧ p.user_id = user.id then
          { p with question := qo.1, options := qo.2 }
        else p) })

/-- `submitVote`: poll lookup, option-index bounds check, duplicate check
for authenticated voters only, then the insert (appending one row). -/
def submitVote (db : DB) (currentUser : Option User) (pollId : String)
    (optionIndex : Int) : Option String × DB :=
  match db.polls.find? (fun p => p.id = pollId) with
  | none => (some "Poll not found.", db)
  | some poll =>
    if optionIndex < 0 ∨ (poll.options.length : Int) ≤ optionIndex then
      (some "Invalid option selected.", db)
    else
      match currentUser with
      | some user =>
        if db.votes.any (fun v => v.poll_id = pollId ∧ v.user_id = some user.id) then
          (some "You have already voted on this poll.", db)
        else
          (none, { db with votes := db.votes ++ [⟨pollId, some user.id, optionIndex⟩] })
      | none => (none, { db with votes := db.votes ++ [⟨pollId, none, optionIndex⟩] })

/-- The hardcoded admin allow-list of `checkAdminAccess`. -/
def adminEmails : List String := ["admin@alxpolly.com"]

/-- Result of `checkAdminAccess`. -/
structure AdminCheck where
  isAdmin : Bool
  error : Option String
deriving DecidableEq, Repr

/-- `checkAdminAccess`: not authenticated, or email membership in the
allow-list. -/
def checkAdminAccess (currentUser : Option User) : AdminCheck :=
  match currentUser with
  | none => ⟨false, some "Not authenticated"⟩
  | some user =>
    if user.email ∈ adminEmails then ⟨true, none⟩
    else ⟨false, some "Insufficient privileges"⟩

/-- `adminDeletePoll`: admin gate, then delete the poll's votes, then the
poll itself, with no ownership condition. -/
def adminDeletePoll (db : DB) (currentUser : Option User) (pollId : String) :
    Option String × DB :=
  let check := checkAdminAccess currentUser
  if check.isAdmin then
    (none, { polls := db.polls.filter (fun p => p.id ≠ pollId),
             votes := db.votes.filter (fun v => v.poll_id ≠ pollId) })
  else (check.error, db)

/-- `Math.round(count / total * 100)` for `total > 0`, else `0`, with the
float quotient modelled exactly: round half up is
`(200 * count + total) / (2 * total)` in integer division. -/
def pctOf (count total : Nat) : Nat :=
  if 0 < total then (200 * count + total) / (2 * total) else 0

/-- The tally loop of `getPollWithResults`: start from a zero array of
length `numOptions` and bump the counter of each in-bounds vote row. -/
def optionCounts (numOptions : Nat) (voteRows : List Int) : List Nat :=
  voteRows.foldl
    (fun counts v =>
      if 0 ≤ v ∧ v < (numOptions : Int) then
        counts.set v.toNat (counts.getD v.toNat 0 + 1)
      else counts)
    (List.replicate numOptions 0)

/-- One element of the `results` array of `getPollWithResults`. -/
structure OptionResult where
  option : String
  votes : Nat
  percentage : Nat
deriving DecidableEq, Repr

/-- The result computation of `getPollWithResults` on the fetched vote
rows: per-option counts, the per-option percentage against the full row
count, and the total. -/
def computeResults (options : List String) (voteRows : List Int) :
    List OptionResult × Nat :=
  let totalVotes := voteRows.length
  let counts := optionCounts options.length voteRows
  (options.mapIdx (fun i opt => ⟨opt, counts.getD i 0, pctOf (counts.getD i 0) totalVotes⟩),
    totalVotes)

/-- `getPollWithResults`: poll lookup, fetch the poll's vote rows, compute
results. -/
def getPollWithResults (db : DB) (id : String) :
    Option (Poll × List OptionResult × Nat) :=
  match db.polls.find? (fun p => p.id = id) with
  | none => none
  | some poll =>
    some (poll, computeResults poll.options
      ((db.votes.filter (fun v => v.poll_id = id)).map Vote.option_index))

/-- Iterated anonymous voting: the store state after `n` successive
`submitVote` calls with no authenticated user. -/
def voteAnonIter (db : DB) (pid : String) (idx : Int) : Nat → DB
  | 0 => db
  | n + 1 => (submitVote (voteAnonIter db pid idx n) none pid idx).2

/-- Case-insensitive character match, as a proposition: `c` is the
lowercase pattern character `p` or its uppercase form. -/
def CharCI (p c : Char) : Prop := c = p ∨ c = upcase p

/-- A string `u` is a case-insensitive rendering of the lowercase pattern
`pat`. -/
def MatchesCI (pat u : List Char) : Prop := List.Forall₂ CharCI pat u

/-- The literal pattern `pat` occurs (case-insensitively) somewhere in
`s` — the declarative reading of a `/pat/i` regex test. -/
def SubPatIn (pat s : List Char) : Prop :=
  ∃ a u b, s = a ++ u ++ b ∧ MatchesCI pat u

/-- The pattern `/<tag[^>]*>/i` matches somewhere in `s`: an occurrence
of the tag opener followed by a later `>`. -/
def TagPatIn (tag s : List Char) : Prop :=
  ∃ a u b, s = a ++ u ++ b ∧ MatchesCI tag u ∧ '>' ∈ b

/-- The pattern `/on\w+=/i` matches somewhere in `s`: `on`, a non-empty
run of word characters, then `=`. -/
def OnPatIn (s : List Char) : Prop :=
  ∃ a c1 c2 w b, s = a ++ c1 :: c2 :: (w ++ '=' :: b) ∧ CharCI 'o' c1 ∧ CharCI 'n' c2 ∧
    w ≠ [] ∧ ∀ c ∈ w, isWordCharB c = true

/-- Some pattern of the fixed dangerous-pattern list of `isTextSafe`
matches `t`, stated declaratively. -/
def DangerousIn (t : List Char) : Prop :=
  TagPatIn scriptOpenPat t ∨ SubPatIn scriptClosePat t ∨ SubPatIn jsPat t ∨ OnPatIn t ∨
    TagPatIn iframePat t ∨ TagPatIn objectPat t ∨ TagPatIn embedPat t ∨ TagPatIn linkPat t ∨
    TagPatIn metaPat t

/-! Theorems: the specification claims. -/

/-- C3, counterexample: the question `"<>"` is non-empty after trimming
but empty after sanitization; poll validation nevertheless accepts it and
returns `Ok` with an empty sanitized question, instead of the
empty-question error the claim requires. -/
theorem C3_counterexample :
    validateAndSanitizeInput "<>" 500 "Question" = .ok "" ∧
      validatePollInput "<>" ["A", "B"] = .ok ("", ["A", "B"]) :=
  ⟨rfl, rfl⟩

/-- C3, amended: the emptiness check runs on the trimmed raw input before
sanitization, so every question that is empty after trimming alone is
rejected with the cannot-be-empty error; a question emptied only by the
sanitizer is accepted with an empty sanitized question. -/
theorem C3_trim_empty_rejected (input fieldName : String) (maxLength : Nat)
    (hne : input ≠ "") (htrim : trimChars input.data = []) :
    validateAndSanitizeInput input maxLength fieldName =
      .error (fieldName ++ " cannot be empty.") := by
  unfold validateAndSanitizeInput
  rw [if_neg hne]
  simp [htrim]

/-- Witness for C3_trim_empty_rejected at the all-blank question. -/
theorem C3_trim_empty_rejected_witness :
    ("  " : String) ≠ "" ∧ trimChars ("  " : String).data = [] ∧
      validateAndSanitizeInput "  " 500 "Question" =
        .error ("Question cannot be empty.") :=
  ⟨by decide, by rfl, C3_trim_empty_rejected "  " "Question" 500 (by decide) (by rfl)⟩

/-- C2, counterexample: `"Yes"` and `"yes"` are equal after trimming and
case-folding, yet poll validation accepts the list — the duplicate check
compares sanitized options case-sensitively. -/
theorem C2_counterexample :
    validatePollInput "Is it good" ["Yes", "yes"] =
      .ok ("Is it good", ["Yes", "yes"]) := rfl

/-- C2, amended: the duplicate check rejects exact (case-sensitive)
duplicates of the sanitized options, so any accepted option list has
pairwise-distinct sanitized options; options equal only after
case-folding are accepted. -/
theorem C2_sanitized_options_nodup (q : String) (opts : List String)
    (q' : String) (sopts : List String)
    (h : validatePollInput q opts = .ok (q', sopts)) : sopts.Nodup := by
  simp only [validatePollInput] at h
  split at h
  · exact absurd h (by simp)
  · split at h
    · exact absurd h (by simp)
    · split at h
      · exact absurd h (by simp)
      · split at h
        · exact absurd h (by simp)
        · split at h
          · rename_i hnodup
            obtain ⟨-, rfl⟩ := by simpa using h
            exact hnodup
          · exact absurd h (by simp)

/-- Witness for C2_sanitized_options_nodup at an accepted poll. -/
theorem C2_sanitized_options_nodup_witness :
    validatePollInput "Q" ["A", "B"] = .ok ("Q", ["A", "B"]) ∧
      (["A", "B"] : List String).Nodup :=
  ⟨by rfl, C2_sanitized_options_nodup "Q" ["A", "B"] "Q" ["A", "B"] (by rfl)⟩

/-- C1, counterexample: an authenticated requester (`bob`) who does not
own the poll updates it; the action leaves the poll unchanged but returns
`none` as the error — success — rather than failing with a NotOwner
error. -/
theorem C1_counterexample :
    updatePoll ⟨[⟨"p1", "alice", "Old question", ["A", "B"]⟩], []⟩
        (some ⟨"bob", "bob@example.com"⟩) "p1" "New question" ["X", "Y"] =
      (none, ⟨[⟨"p1", "alice", "Old question", ["A", "B"]⟩], []⟩) := rfl

/-- C1, amended: for an authenticated requester owning no poll with the
target id, an update whose inputs pass validation leaves the store
unchanged (the ownership-filtered update matches no row) and reports
success (`none`) instead of a NotOwner error. -/
theorem C1_nonowner_update_noop (db : DB) (u : User) (pid q : String)
    (opts : List String) (q' : String) (sopts : List String)
    (hval : validatePollInput q opts = .ok (q', sopts))
    (hown : ∀ p ∈ db.polls, p.id = pid → p.user_id ≠ u.id) :
    updatePoll db (some u) pid q opts = (none, db) := by
  have hmap : db.polls.map (fun p =>
      if p.id = pid ∧ p.user_id = u.id then { p with question := q', options := sopts }
      else p) = db.polls := by
    conv_rhs => rw [← List.map_id db.polls]
    refine List.map_congr_left fun p hp => ?_
    exact if_neg (fun hc => hown p hp hc.1 hc.2)
  simp only [updatePoll, hval, hmap]

/-- Witness for C1_nonowner_update_noop: bob updates alice's poll. -/
theorem C1_nonowner_update_noop_witness :
    validatePollInput "New question" ["X", "Y"] = .ok ("New question", ["X", "Y"]) ∧
      updatePoll ⟨[⟨"pA", "alice", "Old question", ["A", "B"]⟩], []⟩
          (some ⟨"bob", "bob@example.com"⟩) "pA" "New question" ["X", "Y"] =
        (none, ⟨[⟨"pA", "alice", "Old question", ["A", "B"]⟩], []⟩) :=
  ⟨by rfl, C1_nonowner_update_noop ⟨[⟨"pA", "alice", "Old question", ["A", "B"]⟩], []⟩
    ⟨"bob", "bob@example.com"⟩ "pA" "New question" ["X", "Y"] "New question" ["X", "Y"]
    (by rfl) (by decide)⟩

/-- C7: a requester whose email is in the fixed allow-list may delete any
poll with no ownership condition: the call succeeds, no vote of that poll
and no poll with that id remain, and every other row survives; a
requester outside the list gets the insufficient-privileges error and an
unauthenticated one the not-authenticated error, both leaving the store
unchanged. -/
theorem C7_admin_delete (db : DB) (pid : String) (u : User) :
    (u.email ∈ adminEmails →
      (adminDeletePoll db (some u) pid).1 = none ∧
      (∀ v ∈ (adminDeletePoll db (some u) pid).2.votes, v.poll_id ≠ pid) ∧
      (∀ p ∈ (adminDeletePoll db (some u) pid).2.polls, p.id ≠ pid) ∧
      (∀ v ∈ db.votes, v.poll_id ≠ pid → v ∈ (adminDeletePoll db (some u) pid).2.votes) ∧
      (∀ p ∈ db.polls, p.id ≠ pid → p ∈ (adminDeletePoll db (some u) pid).2.polls)) ∧
    (u.email ∉ adminEmails →
      adminDeletePoll db (some u) pid = (some "Insufficient privileges", db)) ∧
    adminDeletePoll db none pid = (some "Not authenticated", db) := by
  refine ⟨fun hadm => ?_, fun hnadm => ?_, ?_⟩
  · simp only [adminDeletePoll, checkAdminAccess, if_pos hadm]
    refine ⟨rfl, ?_, ?_, ?_, ?_⟩
    · intro v hv
      have := (List.mem_filter.mp hv).2
      simpa using this
    · intro p hp
      have := (List.mem_filter.mp hp).2
      simpa using this
    · intro v hv hne
      exact List.mem_filter.mpr ⟨hv, by simpa using hne⟩
    · intro p hp hne
      exact List.mem_filter.mpr ⟨hp, by simpa using hne⟩
  · simp [adminDeletePoll, checkAdminAccess, hnadm]
  · simp [adminDeletePoll, checkAdminAccess]

/-- Witness for C7_admin_delete: the allow-listed admin deletes alice's
poll `p1` together with its votes, while poll `p2` and its vote stay. -/
theorem C7_admin_delete_witness :
    (adminDeletePoll ⟨[⟨"p1", "alice", "Q", ["A", "B"]⟩, ⟨"p2", "alice", "R", ["C", "D"]⟩],
        [⟨"p1", some "carol", 0⟩, ⟨"p2", none, 1⟩]⟩
      (some ⟨"adm", "admin@alxpolly.com"⟩) "p1").1 = none ∧
    (∀ v ∈ (adminDeletePoll ⟨[⟨"p1", "alice", "Q", ["A", "B"]⟩, ⟨"p2", "alice", "R", ["C", "D"]⟩],
        [⟨"p1", some "carol", 0⟩, ⟨"p2", none, 1⟩]⟩
      (some ⟨"adm", "admin@alxpolly.com"⟩) "p1").2.votes, v.poll_id ≠ "p1") ∧
    (∀ p ∈ (adminDeletePoll ⟨[⟨"p1", "alice", "Q", ["A", "B"]⟩, ⟨"p2", "alice", "R", ["C", "D"]⟩],
        [⟨"p1", some "carol", 0⟩, ⟨"p2", none, 1⟩]⟩
      (some ⟨"adm", "admin@alxpolly.com"⟩) "p1").2.polls, p.id ≠ "p1") ∧
    (∀ v ∈ ([⟨"p1", some "carol", 0⟩, ⟨"p2", none, 1⟩] : List Vote), v.poll_id ≠ "p1" →
      v ∈ (adminDeletePoll ⟨[⟨"p1", "alice", "Q", ["A", "B"]⟩, ⟨"p2", "alice", "R", ["C", "D"]⟩],
        [⟨"p1", some "carol", 0⟩, ⟨"p2", none, 1⟩]⟩
      (some ⟨"adm", "admin@alxpolly.com"⟩) "p1").2.votes) ∧
    (∀ p ∈ ([⟨"p1", "alice", "Q", ["A", "B"]⟩, ⟨"p2", "alice", "R", ["C", "D"]⟩] : List Poll),
      p.id ≠ "p1" →
      p ∈ (adminDeletePoll ⟨[⟨"p1", "alice", "Q", ["A", "B"]⟩, ⟨"p2", "alice", "R", ["C", "D"]⟩],
        [⟨"p1", some "carol", 0⟩, ⟨"p2", none, 1⟩]⟩
      (some ⟨"adm", "admin@alxpolly.com"⟩) "p1").2.polls) :=
  (C7_admin_delete ⟨[⟨"p1", "alice", "Q", ["A", "B"]⟩, ⟨"p2", "alice", "R", ["C", "D"]⟩],
      [⟨"p1", some "carol", 0⟩, ⟨"p2", none, 1⟩]⟩ "p1" ⟨"adm", "admin@alxpolly.com"⟩).1
    (by decide)

/-- C5: for an existing poll, a valid option index and an authenticated
voter with no prior vote on the poll, the first `submitVote` succeeds and
appends the vote, the second fails with the already-voted error and
leaves the store unchanged, and exactly one vote record for the
`(poll, voter)` pair exists afterwards; moreover the poll-not-found check
precedes the option check (it fires for any index) and the option check
precedes the duplicate check (it fires whatever the vote table holds). -/
theorem C5_double_vote (db : DB) (u : User) (pid : String) (idx : Int) (poll : Poll)
    (hfind : db.polls.find? (fun p => p.id = pid) = some poll)
    (h0 : 0 ≤ idx) (hlt : idx < (poll.options.length : Int))
    (hno : ∀ v ∈ db.votes, ¬(v.poll_id = pid ∧ v.user_id = some u.id)) :
    submitVote db (some u) pid idx =
      (none, { db with votes := db.votes ++ [⟨pid, some u.id, idx⟩] }) ∧
    submitVote { db with votes := db.votes ++ [⟨pid, some u.id, idx⟩] } (some u) pid idx =
      (some "You have already voted on this poll.",
        { db with votes := db.votes ++ [⟨pid, some u.id, idx⟩] }) ∧
    ((db.votes ++ ([⟨pid, some u.id, idx⟩] : List Vote)).filter
        (fun v : Vote => v.poll_id = pid ∧ v.user_id = some u.id)).length = 1 ∧
    (∀ (db' : DB) (cu : Option User) (idx' : Int),
      db'.polls.find? (fun p => p.id = pid) = none →
      submitVote db' cu pid idx' = (some "Poll not found.", db')) ∧
    (∀ (db' : DB) (cu : Option User) (poll' : Poll) (idx' : Int),
      db'.polls.find? (fun p => p.id = pid) = some poll' →
      (idx' < 0 ∨ (poll'.options.length : Int) ≤ idx') →
      submitVote db' cu pid idx' = (some "Invalid option selected.", db')) := by
  have hcond : ¬(idx < 0 ∨ (poll.options.length : Int) ≤ idx) := by omega
  have hany : db.votes.any (fun v => decide (v.poll_id = pid ∧ v.user_id = some u.id)) =
      false := by
    rw [List.any_eq_false]
    intro v hv
    simpa using hno v hv
  have hfilter : db.votes.filter
      (fun v => decide (v.poll_id = pid ∧ v.user_id = some u.id)) = [] := by
    rw [List.filter_eq_nil_iff]
    intro v hv
    simpa using hno v hv
  refine ⟨?_, ?_, ?_, ?_, ?_⟩
  · simp only [submitVote, hfind]
    rw [if_neg hcond, hany]
    rfl
  · simp only [submitVote, hfind]
    rw [if_neg hcond]
    simp [List.any_append, hany]
  · simp [List.filter_append, hfilter]
    intro a ha h1
    exact fun h2 => hno a ha ⟨h1, h2⟩
  · intro db' cu idx' hnone
    simp [submitVote, hnone]
  · intro db' cu poll' idx' hsome hbad
    simp only [submitVote, hsome]
    rw [if_pos hbad]

/-- Witness for C5_double_vote: bob votes twice on poll `p1`. -/
theorem C5_double_vote_witness :
    submitVote ⟨[⟨"p1", "alice", "Q", ["A", "B"]⟩], []⟩ (some ⟨"bob", "bob@example.com"⟩)
        "p1" 0 =
      (none, ⟨[⟨"p1", "alice", "Q", ["A", "B"]⟩], [⟨"p1", some "bob", 0⟩]⟩) ∧
    submitVote ⟨[⟨"p1", "alice", "Q", ["A", "B"]⟩], [⟨"p1", some "bob", 0⟩]⟩
        (some ⟨"bob", "bob@example.com"⟩) "p1" 0 =
      (some "You have already voted on this poll.",
        ⟨[⟨"p1", "alice", "Q", ["A", "B"]⟩], [⟨"p1", some "bob", 0⟩]⟩) :=
  have h := C5_double_vote ⟨[⟨"p1", "alice", "Q", ["A", "B"]⟩], []⟩
    ⟨"bob", "bob@example.com"⟩ "p1" 0 ⟨"p1", "alice", "Q", ["A", "B"]⟩
    (by rfl) (by decide) (by decide) (by simp)
  ⟨h.1, h.2.1⟩

/-- C6: for an existing poll and a valid option index, anonymous votes
are accepted unconditionally — after any number `n` of anonymous calls
the poll table is untouched, exactly `n` vote rows have been appended,
and the next anonymous call again succeeds and appends one more row. -/
theorem C6_anonymous_votes (db : DB) (pid : String) (idx : Int) (poll : Poll)
    (hfind : db.polls.find? (fun p => p.id = pid) = some poll)
    (h0 : 0 ≤ idx) (hlt : idx < (poll.options.length : Int)) :
    ∀ n : Nat,
      (voteAnonIter db pid idx n).polls = db.polls ∧
      (voteAnonIter db pid idx n).votes.length = db.votes.length + n ∧
      submitVote (voteAnonIter db pid idx n) none pid idx =
        (none, { voteAnonIter db pid idx n with
          votes := (voteAnonIter db pid idx n).votes ++ [⟨pid, none, idx⟩] }) := by
  have hcond : ¬(idx < 0 ∨ (poll.options.length : Int) ≤ idx) := by omega
  have hstep : ∀ s : DB, s.polls = db.polls →
      submitVote s none pid idx = (none, { s with votes := s.votes ++ [⟨pid, none, idx⟩] }) := by
    intro s hs
    simp only [submitVote, hs, hfind]
    rw [if_neg hcond]
  intro n
  induction n with
  | zero => exact ⟨rfl, by simp [voteAnonIter], hstep db rfl⟩
  | succ n ih =>
    obtain ⟨hpolls, hlen, hcall⟩ := ih
    have hiter : voteAnonIter db pid idx (n + 1) =
        { voteAnonIter db pid idx n with
          votes := (voteAnonIter db pid idx n).votes ++ [⟨pid, none, idx⟩] } := by
      simp only [voteAnonIter, hcall]
    refine ⟨?_, ?_, ?_⟩
    · rw [hiter]
      exact hpolls
    · rw [hiter]
      simp [hlen]
      omega
    · apply hstep
      rw [hiter]
      exact hpolls

/-- Witness for C6_anonymous_votes after three anonymous votes. -/
theorem C6_anonymous_votes_witness :
    (voteAnonIter ⟨[⟨"p1", "alice", "Q", ["A", "B"]⟩], []⟩ "p1" 0 3).polls =
      (⟨[⟨"p1", "alice", "Q", ["A", "B"]⟩], []⟩ : DB).polls ∧
    (voteAnonIter ⟨[⟨"p1", "alice", "Q", ["A", "B"]⟩], []⟩ "p1" 0 3).votes.length =
      (⟨[⟨"p1", "alice", "Q", ["A", "B"]⟩], []⟩ : DB).votes.length + 3 ∧
    submitVote (voteAnonIter ⟨[⟨"p1", "alice", "Q", ["A", "B"]⟩], []⟩ "p1" 0 3) none "p1" 0 =
      (none, { voteAnonIter ⟨[⟨"p1", "alice", "Q", ["A", "B"]⟩], []⟩ "p1" 0 3 with
        votes := (voteAnonIter ⟨[⟨"p1", "alice", "Q", ["A", "B"]⟩], []⟩ "p1" 0 3).votes ++
          [⟨"p1", none, 0⟩] }) :=
  C6_anonymous_votes ⟨[⟨"p1", "alice", "Q", ["A", "B"]⟩], []⟩ "p1" 0
    ⟨"p1", "alice", "Q", ["A", "B"]⟩ (by rfl) (by decide) (by decide) 3

theorem getD_set_self (l : List Nat) (i a : Nat) (h : i < l.length) :
    (l.set i a).getD i 0 = a := by
  simp [List.getD_eq_getElem?_getD, List.getElem?_set, h]

theorem getD_set_other (l : List Nat) (i j a : Nat) (h : i ≠ j) :
    (l.set i a).getD j 0 = l.getD j 0 := by
  simp [List.getD_eq_getElem?_getD, List.getElem?_set, h]

theorem foldl_counts_length (votes : List Int) (n : Nat) :
    ∀ counts : List Nat,
      (votes.foldl (fun cs v =>
        if 0 ≤ v ∧ v < (n : Int) then cs.set v.toNat (cs.getD v.toNat 0 + 1) else cs)
        counts).length = counts.length := by
  induction votes with
  | nil => intro counts; rfl
  | cons v vs ih =>
    intro counts
    simp only [List.foldl_cons]
    rw [ih]
    split
    · simp
    · rfl

theorem foldl_counts_getD (votes : List Int) (n : Nat) :
    ∀ (counts : List Nat) (i : Nat), i < counts.length → i < n →
      (votes.foldl (fun cs v =>
        if 0 ≤ v ∧ v < (n : Int) then cs.set v.toNat (cs.getD v.toNat 0 + 1) else cs)
        counts).getD i 0 =
      counts.getD i 0 + (votes.filter (fun v => v = (i : Int))).length := by
  induction votes with
  | nil =>
    intro counts i hi hin
    simp
  | cons v vs ih =>
    intro counts i hi hin
    simp only [List.foldl_cons]
    have hlen : i < (if 0 ≤ v ∧ v < (n : Int) then
        counts.set v.toNat (counts.getD v.toNat 0 + 1) else counts).length := by
      split <;> simpa using hi
    rw [ih _ i hlen hin]
    by_cases hb : 0 ≤ v ∧ v < (n : Int)
    · by_cases hv : v = (i : Int)
      · have hti : v.toNat = i := by omega
        rw [if_pos hb, hti, getD_set_self _ _ _ hi]
        simp [List.filter_cons, hv]
        omega
      · have hti : v.toNat ≠ i := by omega
        rw [if_pos hb, getD_set_other _ _ _ _ hti]
        simp [List.filter_cons, hv]
    · have hv : ¬(v = (i : Int)) := by omega
      rw [if_neg hb]
      simp [List.filter_cons, hv]

theorem optionCounts_length (n : Nat) (votes : List Int) :
    (optionCounts n votes).length = n := by
  unfold optionCounts
  rw [foldl_counts_length]
  simp

theorem optionCounts_getD (n : Nat) (votes : List Int) (i : Nat) (hin : i < n) :
    (optionCounts n votes).getD i 0 = (votes.filter (fun v => v = (i : Int))).length := by
  unfold optionCounts
  rw [foldl_counts_getD votes n (List.replicate n 0) i (by simpa using hin) hin]
  simp [List.getD_eq_getElem?_getD, List.getElem?_replicate, hin]

theorem pct_round (c t : Nat) (ht : 0 < t) :
    ((pctOf c t : Nat) : ℤ) = round ((c : ℚ) * 100 / t) := by
  have ht' : (t : ℚ) ≠ 0 := by positivity
  have harith : (c : ℚ) * 100 / t + 1 / 2 = ((200 * c + t : ℕ) : ℚ) / ((2 * t : ℕ) : ℚ) := by
    push_cast
    field_simp
    ring
  rw [round_eq, harith]
  have hfl : ⌊((200 * c + t : ℕ) : ℚ) / ((2 * t : ℕ) : ℚ)⌋₊ = (200 * c + t) / (2 * t) :=
    Nat.floor_div_eq_div _ _
  have hnn : (0 : ℚ) ≤ ((200 * c + t : ℕ) : ℚ) / ((2 * t : ℕ) : ℚ) := by positivity
  rw [← Int.natCast_floor_eq_floor hnn, hfl, pctOf, if_pos ht]

theorem sum_indicator (n : Nat) (v : Int) :
    (∑ i ∈ Finset.range n, if v = (i : Int) then 1 else 0) =
      if 0 ≤ v ∧ v < (n : Int) then (1 : Nat) else 0 := by
  by_cases h : 0 ≤ v ∧ v < (n : Int)
  · rw [if_pos h]
    rw [Finset.sum_eq_single_of_mem v.toNat (Finset.mem_range.mpr (by omega))]
    · rw [if_pos (by omega)]
    · intro b hb hne
      rw [if_neg (by simp at hb; omega)]
  · rw [if_neg h]
    apply Finset.sum_eq_zero
    intro i hi
    rw [if_neg (by simp at hi; omega)]

theorem sum_counts_eq (n : Nat) (votes : List Int) :
    (∑ i ∈ Finset.range n, (votes.filter (fun v => v = (i : Int))).length) =
      (votes.filter (fun v => 0 ≤ v ∧ v < (n : Int))).length := by
  induction votes with
  | nil => simp
  | cons v vs ih =>
    have hsummand : ∀ i ∈ Finset.range n,
        ((v :: vs).filter (fun x => x = (i : Int))).length =
          (if v = (i : Int) then 1 else 0) + (vs.filter (fun x => x = (i : Int))).length := by
      intro i _
      simp only [List.filter_cons]
      split
      · rename_i hd
        rw [if_pos (by simpa using hd)]
        simp [Nat.add_comm]
      · rename_i hd
        rw [if_neg (by simpa using hd)]
        simp
    rw [Finset.sum_congr rfl hsummand, Finset.sum_add_distrib, sum_indicator, ih]
    simp only [List.filter_cons]
    split
    · rename_i hd
      rw [if_pos (by simpa using hd)]
      simp [Nat.add_comm]
    · rename_i hd
      rw [if_neg (by simpa using hd)]
      simp

theorem computeResults_getD (options : List String) (voteRows : List Int) (i : Nat)
    (hi : i < options.length) :
    (computeResults options voteRows).1.getD i ⟨"", 0, 0⟩ =
      ⟨options.getD i "",
        (voteRows.filter (fun v => v = (i : Int))).length,
        pctOf ((voteRows.filter (fun v => v = (i : Int))).length) voteRows.length⟩ := by
  unfold computeResults
  have hcnt := optionCounts_getD options.length voteRows i hi
  have h' : i < (options.mapIdx fun i opt =>
      (⟨opt, (optionCounts options.length voteRows).getD i 0,
        pctOf ((optionCounts options.length voteRows).getD i 0) voteRows.length⟩ :
        OptionResult)).length := by
    simpa [List.length_mapIdx] using hi
  simp only
  rw [List.getD_eq_getElem _ _ h', List.getD_eq_getElem _ _ hi]
  have := List.get_mapIdx options (fun i opt =>
    (⟨opt, (optionCounts options.length voteRows).getD i 0,
      pctOf ((optionCounts options.length voteRows).getD i 0) voteRows.length⟩ :
      OptionResult)) i hi
  simp only [List.get_eq_getElem] at this
  rw [this, hcnt]

/-- C4: result computation counts, for each in-range option index, the
votes equal to it (out-of-bounds rows are skipped), reports the option
text unchanged, sets the percentage to the half-up rounding of
`count/total*100` when the total is positive and to `0` otherwise, and on
the poll `["A","B"]` with votes `[0,0,1]` yields counts 2 and 1,
percentages 67 and 33, and total 3. -/
theorem C4_result_computation (options : List String) (voteRows : List Int) (i : Nat)
    (hi : i < options.length) :
    (computeResults options voteRows).2 = voteRows.length ∧
    (computeResults options voteRows).1.length = options.length ∧
    ((computeResults options voteRows).1.getD i ⟨"", 0, 0⟩).option = options.getD i "" ∧
    ((computeResults options voteRows).1.getD i ⟨"", 0, 0⟩).votes =
      (voteRows.filter (fun v => v = (i : Int))).length ∧
    (0 < voteRows.length →
      ((((computeResults options voteRows).1.getD i ⟨"", 0, 0⟩).percentage : Nat) : ℤ) =
        round (((voteRows.filter (fun v => v = (i : Int))).length : ℚ) * 100 /
          voteRows.length)) ∧
    (voteRows.length = 0 →
      ((computeResults options voteRows).1.getD i ⟨"", 0, 0⟩).percentage = 0) ∧
    computeResults ["A", "B"] [0, 0, 1] = ([⟨"A", 2, 67⟩, ⟨"B", 1, 33⟩], 3) := by
  have hres := computeResults_getD options voteRows i hi
  refine ⟨rfl, by simp [computeResults, List.length_mapIdx], ?_, ?_, ?_, ?_, by rfl⟩
  · rw [hres]
  · rw [hres]
  · intro ht
    rw [hres]
    exact pct_round _ _ ht
  · intro ht
    rw [hres]
    simp [pctOf, ht]

/-- Witness for C4_result_computation on `["A","B"]` with votes
`[0,0,1]` at index 0. -/
theorem C4_result_computation_witness :
    (computeResults ["A", "B"] [0, 0, 1]).2 = ([0, 0, 1] : List Int).length ∧
    ((computeResults ["A", "B"] [0, 0, 1]).1.getD 0 ⟨"", 0, 0⟩).votes =
      (([0, 0, 1] : List Int).filter (fun v => v = ((0 : Nat) : Int))).length ∧
    (0 < ([0, 0, 1] : List Int).length →
      ((((computeResults ["A", "B"] [0, 0, 1]).1.getD 0 ⟨"", 0, 0⟩).percentage : Nat) : ℤ) =
        round (((([0, 0, 1] : List Int).filter
          (fun v => v = ((0 : Nat) : Int))).length : ℚ) * 100 /
            ([0, 0, 1] : List Int).length)) :=
  have h := C4_result_computation ["A", "B"] [0, 0, 1] 0 (by decide)
  ⟨h.1, h.2.2.2.1, h.2.2.2.2.1⟩

/-- C9: the reported total is the number of all fetched vote rows,
including out-of-bounds ones; the per-option counts sum to the number of
in-bounds rows, hence are at most the total, with strict shortfall
exactly when some out-of-bounds row exists; and each percentage is
computed against the full total, not the in-bounds sum. -/
theorem C9_total_includes_invalid (options : List String) (voteRows : List Int) :
    (computeResults options voteRows).2 = voteRows.length ∧
    (∑ i ∈ Finset.range options.length, (optionCounts options.length voteRows).getD i 0) =
      (voteRows.filter (fun v => 0 ≤ v ∧ v < (options.length : Int))).length ∧
    (∑ i ∈ Finset.range options.length, (optionCounts options.length voteRows).getD i 0) ≤
      voteRows.length ∧
    ((∑ i ∈ Finset.range options.length, (optionCounts options.length voteRows).getD i 0) <
        voteRows.length ↔
      ∃ v ∈ voteRows, v < 0 ∨ (options.length : Int) ≤ v) ∧
    (∀ i : Nat, i < options.length →
      ((computeResults options voteRows).1.getD i ⟨"", 0, 0⟩).percentage =
        pctOf ((voteRows.filter (fun v => v = (i : Int))).length) voteRows.length) := by
  have hsum : (∑ i ∈ Finset.range options.length,
      (optionCounts options.length voteRows).getD i 0) =
      (voteRows.filter (fun v => 0 ≤ v ∧ v < (options.length : Int))).length := by
    rw [Finset.sum_congr rfl fun i hi =>
      optionCounts_getD options.length voteRows i (Finset.mem_range.mp hi)]
    exact sum_counts_eq options.length voteRows
  have htot := List.length_eq_length_filter_add
    (l := voteRows) (fun v => decide (0 ≤ v ∧ v < (options.length : Int)))
  refine ⟨rfl, hsum, ?_, ?_, ?_⟩
  · rw [hsum]
    omega
  · rw [hsum]
    constructor
    · intro hlt
      have hpos : 0 < (voteRows.filter
          (fun v => !decide (0 ≤ v ∧ v < (options.length : Int)))).length := by omega
      obtain ⟨v, hv⟩ := List.exists_mem_of_length_pos hpos
      have := List.mem_filter.mp hv
      refine ⟨v, this.1, ?_⟩
      have hb := this.2
      simp at hb
      omega
    · rintro ⟨v, hv, hb⟩
      have hmem : v ∈ voteRows.filter
          (fun v => !decide (0 ≤ v ∧ v < (options.length : Int))) := by
        refine List.mem_filter.mpr ⟨hv, ?_⟩
        simp
        omega
      have hpos : 0 < (voteRows.filter
          (fun v => !decide (0 ≤ v ∧ v < (options.length : Int)))).length :=
        List.length_pos_of_mem hmem
      omega
  · intro i hi
    rw [computeResults_getD options voteRows i hi]

/-- Witness for C9_total_includes_invalid on votes `[0,0,1,5,-1]` over
two options: the counts sum to 3, strictly below the total 5, because
out-of-bounds rows exist. -/
theorem C9_total_includes_invalid_witness :
    ((∑ i ∈ Finset.range (["A", "B"] : List String).length,
        (optionCounts (["A", "B"] : List String).length
          ([0, 0, 1, 5, -1] : List Int)).getD i 0) <
      ([0, 0, 1, 5, -1] : List Int).length ↔
      ∃ v ∈ ([0, 0, 1, 5, -1] : List Int),
        v < 0 ∨ ((["A", "B"] : List String).length : Int) ≤ v) ∧
    ((computeResults ["A", "B"] [0, 0, 1, 5, -1]).1.getD 0 ⟨"", 0, 0⟩).percentage =
      pctOf ((([0, 0, 1, 5, -1] : List Int).filter
        (fun v => v = ((0 : Nat) : Int))).length) ([0, 0, 1, 5, -1] : List Int).length :=
  have h := C9_total_includes_invalid ["A", "B"] [0, 0, 1, 5, -1]
  ⟨h.2.2.2.1, h.2.2.2.2 0 (by decide)⟩

theorem ciEq_iff (p c : Char) : ciEq p c = true ↔ CharCI p c := by
  simp [ciEq, CharCI]

theorem ciIsPrefix_iff (pat : List Char) :
    ∀ s : List Char, ciIsPrefix pat s = true ↔ ∃ u t, s = u ++ t ∧ MatchesCI pat u := by
  induction pat with
  | nil =>
    intro s
    constructor
    · intro _
      exact ⟨[], s, rfl, List.Forall₂.nil⟩
    · intro _
      rfl
  | cons p ps ih =>
    intro s
    cases s with
    | nil =>
      constructor
      · intro h
        exact absurd h (by simp [ciIsPrefix])
      · rintro ⟨u, t, heq, hm⟩
        obtain ⟨hu, -⟩ := List.append_eq_nil.mp heq.symm
        subst hu
        cases hm
    | cons c cs =>
      constructor
      · intro h
        simp only [ciIsPrefix, Bool.and_eq_true] at h
        obtain ⟨h1, h2⟩ := h
        obtain ⟨u, t, heq, hm⟩ := (ih cs).mp h2
        exact ⟨c :: u, t, by rw [heq, List.cons_append],
          List.Forall₂.cons ((ciEq_iff p c).mp h1) hm⟩
      · rintro ⟨u, t, heq, hm⟩
        cases u with
        | nil => cases hm
        | cons u0 u' =>
          rw [List.cons_append] at heq
          injection heq with hc hcs
          subst hc
          simp only [ciIsPrefix, Bool.and_eq_true]
          cases hm with
          | cons h1 h2 => exact ⟨(ciEq_iff p _).mpr h1, (ih cs).mpr ⟨u', t, hcs, h2⟩⟩

theorem containsSubCI_exists (pat : List Char) :
    ∀ s, containsSubCI pat s = true ↔ ∃ a t, s = a ++ t ∧ ciIsPrefix pat t = true := by
  intro s
  induction s with
  | nil =>
    simp only [containsSubCI]
    constructor
    · intro h
      exact ⟨[], [], rfl, h⟩
    · rintro ⟨a, t, heq, hp⟩
      obtain ⟨ha, ht⟩ := List.append_eq_nil.mp heq.symm
      subst ha
      subst ht
      exact hp
  | cons c cs ih =>
    simp only [containsSubCI, Bool.or_eq_true]
    constructor
    · rintro (h | h)
      · exact ⟨[], c :: cs, rfl, h⟩
      · obtain ⟨a, t, heq, hp⟩ := ih.mp h
        exact ⟨c :: a, t, by rw [heq, List.cons_append], hp⟩
    · rintro ⟨a, t, heq, hp⟩
      cases a with
      | nil =>
        left
        simp only [List.nil_append] at heq
        subst heq
        exact hp
      | cons a0 a' =>
        right
        rw [List.cons_append] at heq
        injection heq with h1 h2
        exact ih.mpr ⟨a', t, h2, hp⟩

theorem containsTagCI_exists (tag : List Char) :
    ∀ s, containsTagCI tag s = true ↔
      ∃ a t, s = a ++ t ∧ (ciIsPrefix tag t && (t.drop tag.length).contains '>') = true := by
  intro s
  induction s with
  | nil =>
    constructor
    · intro h
      exact absurd h (by simp [containsTagCI])
    · rintro ⟨a, t, heq, hp⟩
      obtain ⟨ha, ht⟩ := List.append_eq_nil.mp heq.symm
      subst ht
      rw [Bool.and_eq_true] at hp
      have := hp.2
      simp at this
  | cons c cs ih =>
    simp only [containsTagCI, Bool.or_eq_true]
    constructor
    · rintro (h | h)
      · exact ⟨[], c :: cs, rfl, h⟩
      · obtain ⟨a, t, heq, hp⟩ := ih.mp h
        exact ⟨c :: a, t, by rw [heq, List.cons_append], hp⟩
    · rintro ⟨a, t, heq, hp⟩
      cases a with
      | nil =>
        left
        simp only [List.nil_append] at heq
        subst heq
        exact hp
      | cons a0 a' =>
        right
        rw [List.cons_append] at heq
        injection heq with h1 h2
        exact ih.mpr ⟨a', t, h2, hp⟩

theorem containsOnCI_exists :
    ∀ s, containsOnCI s = true ↔ ∃ a t, s = a ++ t ∧ (onMatchLen t).isSome = true := by
  intro s
  induction s with
  | nil =>
    constructor
    · intro h
      exact absurd h (by simp [containsOnCI])
    · rintro ⟨a, t, heq, hp⟩
      obtain ⟨ha, ht⟩ := List.append_eq_nil.mp heq.symm
      subst ht
      simp [onMatchLen] at hp
  | cons c cs ih =>
    simp only [containsOnCI, Bool.or_eq_true]
    constructor
    · rintro (h | h)
      · exact ⟨[], c :: cs, rfl, h⟩
      · obtain ⟨a, t, heq, hp⟩ := ih.mp h
        exact ⟨c :: a, t, by rw [heq, List.cons_append], hp⟩
    · rintro ⟨a, t, heq, hp⟩
      cases a with
      | nil =>
        left
        simp only [List.nil_append] at heq
        subst heq
        exact hp
      | cons a0 a' =>
        right
        rw [List.cons_append] at heq
        injection heq with h1 h2
        exact ih.mpr ⟨a', t, h2, hp⟩

theorem wordRun_le (rest : List Char) : wordRun rest ≤ rest.length := by
  induction rest with
  | nil => simp [wordRun]
  | cons c cs ih =>
    simp only [wordRun, List.length_cons]
    split
    · omega
    · omega

theorem wordRun_take (rest : List Char) :
    ∀ c ∈ rest.take (wordRun rest), isWordCharB c = true := by
  induction rest with
  | nil =>
    intro c hc
    simp [wordRun] at hc
  | cons x xs ih =>
    intro c hc
    simp only [wordRun] at hc
    by_cases hx : isWordCharB x
    · rw [if_pos hx, List.take_succ_cons] at hc
      rcases List.mem_cons.mp hc with h | h
      · subst h
        exact hx
      · exact ih c h
    · rw [if_neg hx] at hc
      simp at hc

theorem wordRun_word_prefix (w b : List Char) (hall : ∀ c ∈ w, isWordCharB c = true) :
    wordRun (w ++ '=' :: b) = w.length := by
  induction w with
  | nil =>
    simp only [List.nil_append, wordRun]
    rw [if_neg (by decide)]
    rfl
  | cons x w' ih =>
    rw [List.cons_append]
    show (if isWordCharB x then wordRun (w' ++ '=' :: b) + 1 else 0) = (x :: w').length
    rw [if_pos (hall x (List.mem_cons_self x w')),
      ih (fun c hc => hall c (List.mem_cons_of_mem x hc))]
    simp

theorem onMatchLen_isSome_iff (t : List Char) :
    (onMatchLen t).isSome = true ↔
      ∃ c1 c2 w b, t = c1 :: c2 :: (w ++ '=' :: b) ∧ CharCI 'o' c1 ∧ CharCI 'n' c2 ∧
        w ≠ [] ∧ ∀ c ∈ w, isWordCharB c = true := by
  constructor
  · intro h
    match t with
    | [] => simp [onMatchLen] at h
    | [c] => simp [onMatchLen] at h
    | c1 :: c2 :: rest =>
      simp only [onMatchLen] at h
      split at h
      · rename_i h12
        split at h
        · rename_i hk
          rw [Bool.and_eq_true] at h12
          obtain ⟨hk1, hk2⟩ := hk
          have hsplit : rest = rest.take (wordRun rest) ++ '=' ::
              (rest.drop (wordRun rest)).tail := by
            conv_lhs => rw [← List.take_append_drop (wordRun rest) rest]
            congr 1
            cases hd : rest.drop (wordRun rest) with
            | nil => rw [hd] at hk2; simp at hk2
            | cons x xs =>
              rw [hd] at hk2
              simp only [List.head?_cons, Option.some.injEq] at hk2
              rw [hk2]
              rfl
          refine ⟨c1, c2, rest.take (wordRun rest), (rest.drop (wordRun rest)).tail,
            by rw [← hsplit], (ciEq_iff _ _).mp h12.1, (ciEq_iff _ _).mp h12.2, ?_,
            wordRun_take rest⟩
          have hlen : (rest.take (wordRun rest)).length = wordRun rest := by
            rw [List.length_take]
            have := wordRun_le rest
            omega
          intro hnil
          rw [hnil] at hlen
          simp at hlen
          omega
        · exact absurd h (by simp)
      · exact absurd h (by simp)
  · rintro ⟨c1, c2, w, b, heq, h1, h2, hw, hall⟩
    subst heq
    simp only [onMatchLen]
    rw [if_pos (show (ciEq 'o' c1 && ciEq 'n' c2) = true by
      rw [Bool.and_eq_true]
      exact ⟨(ciEq_iff _ _).mpr h1, (ciEq_iff _ _).mpr h2⟩)]
    have hrun : wordRun (w ++ '=' :: b) = w.length := wordRun_word_prefix w b hall
    have hpos : 1 ≤ w.length := by
      cases w with
      | nil => exact absurd rfl hw
      | cons x xs => simp
    rw [if_pos ⟨by rw [hrun]; exact hpos, by rw [hrun, List.drop_left]; rfl⟩]
    rfl

theorem containsSubCI_iff (pat : List Char) (s : List Char) :
    containsSubCI pat s = true ↔ SubPatIn pat s := by
  rw [containsSubCI_exists]
  constructor
  · rintro ⟨a, t, heq, hp⟩
    obtain ⟨u, t2, ht, hm⟩ := (ciIsPrefix_iff pat t).mp hp
    exact ⟨a, u, t2, by rw [heq, ht, ← List.append_assoc], hm⟩
  · rintro ⟨a, u, b, heq, hm⟩
    exact ⟨a, u ++ b, by rw [heq, List.append_assoc],
      (ciIsPrefix_iff pat (u ++ b)).mpr ⟨u, b, rfl, hm⟩⟩

theorem containsTagCI_iff (tag : List Char) (s : List Char) :
    containsTagCI tag s = true ↔ TagPatIn tag s := by
  rw [containsTagCI_exists]
  constructor
  · rintro ⟨a, t, heq, hp⟩
    rw [Bool.and_eq_true] at hp
    obtain ⟨hpre, hgt⟩ := hp
    obtain ⟨u, t2, ht, hm⟩ := (ciIsPrefix_iff tag t).mp hpre
    have hdrop : t.drop tag.length = t2 := by
      rw [ht, hm.length_eq, List.drop_left]
    rw [hdrop] at hgt
    exact ⟨a, u, t2, by rw [heq, ht, ← List.append_assoc], hm, by simpa using hgt⟩
  · rintro ⟨a, u, b, heq, hm, hmem⟩
    refine ⟨a, u ++ b, by rw [heq, List.append_assoc], ?_⟩
    rw [Bool.and_eq_true]
    refine ⟨(ciIsPrefix_iff tag (u ++ b)).mpr ⟨u, b, rfl, hm⟩, ?_⟩
    rw [hm.length_eq, List.drop_left]
    simpa using hmem

theorem containsOnCI_iff (s : List Char) : containsOnCI s = true ↔ OnPatIn s := by
  rw [containsOnCI_exists]
  constructor
  · rintro ⟨a, t, heq, hp⟩
    obtain ⟨c1, c2, w, b, ht, h1, h2, hw, hall⟩ := (onMatchLen_isSome_iff t).mp hp
    exact ⟨a, c1, c2, w, b, by rw [heq, ht], h1, h2, hw, hall⟩
  · rintro ⟨a, c1, c2, w, b, heq, h1, h2, hw, hall⟩
    exact ⟨a, c1 :: c2 :: (w ++ '=' :: b), heq,
      (onMatchLen_isSome_iff _).mpr ⟨c1, c2, w, b, rfl, h1, h2, hw, hall⟩⟩

theorem dangerousHit_iff (t : List Char) : dangerousHit t = true ↔ DangerousIn t := by
  simp only [dangerousHit, Bool.or_eq_true, DangerousIn,
    containsTagCI_iff, containsSubCI_iff, containsOnCI_iff]
  tauto

/-- C8, counterexample: the empty string matches none of the dangerous
patterns, yet `isTextSafe` reports it unsafe (the falsy-input guard
returns `false`), contradicting the claimed if-and-only-if. -/
theorem C8_counterexample :
    isTextSafe "" = false ∧ ¬ DangerousIn ("" : String).data :=
  ⟨rfl, fun h => absurd ((dangerousHit_iff _).mpr h) (by decide)⟩

/-- C8, amended: for every non-empty string, `isTextSafe` returns `true`
iff the string matches none of the fixed dangerous patterns (script-tag
opener or closer, `javascript:`, `on<word>=` handlers, and the
`iframe`/`object`/`embed`/`link`/`meta` tag openers, all
case-insensitive); the empty string is reported unsafe. -/
theorem C8_safe_iff (s : String) (hne : s ≠ "") :
    isTextSafe s = true ↔ ¬ DangerousIn s.data := by
  unfold isTextSafe
  rw [if_neg hne]
  constructor
  · intro h hdang
    rw [← dangerousHit_iff] at hdang
    rw [hdang] at h
    exact absurd h (by decide)
  · intro h
    have hfalse : dangerousHit s.data = false := by
      by_contra hc
      exact h ((dangerousHit_iff _).mp (by
        cases hd : dangerousHit s.data
        · exact absurd hd hc
        · rfl))
    rw [hfalse]
    rfl

/-- Witness for C8_safe_iff at the harmless string `hello`. -/
theorem C8_safe_iff_witness :
    ("hello" : String) ≠ "" ∧
      (isTextSafe "hello" = true ↔ ¬ DangerousIn ("hello" : String).data) :=
  ⟨by decide, C8_safe_iff "hello" (by decide)⟩

theorem dropWhile_eq_self_of_head (p : Char → Bool) (l : List Char)
    (h : ∀ x, l.head? = some x → p x = false) : l.dropWhile p = l := by
  cases l with
  | nil => rfl
  | cons a l' =>
    rw [List.dropWhile_cons, h a rfl]
    simp

theorem head_dropWhile_false (p : Char → Bool) (l : List Char) :
    ∀ x, (l.dropWhile p).head? = some x → p x = false := by
  induction l with
  | nil =>
    intro x hx
    simp at hx
  | cons a l' ih =>
    intro x hx
    rw [List.dropWhile_cons] at hx
    by_cases hp : p a
    · rw [if_pos hp] at hx
      exact ih x hx
    · rw [if_neg hp] at hx
      simp only [List.head?_cons, Option.some.injEq] at hx
      subst hx
      cases hpa : p a
      · rfl
      · exact absurd hpa hp

theorem trimChars_getLast (s : List Char) :
    ∀ x, (trimChars s).getLast? = some x → isJsSpace x = false := by
  intro x hx
  unfold trimChars at hx
  rw [List.getLast?_reverse] at hx
  exact head_dropWhile_false _ _ x hx

theorem trimChars_head (s : List Char) :
    ∀ x, (trimChars s).head? = some x → isJsSpace x = false := by
  intro x hx
  unfold trimChars at hx
  rw [List.head?_reverse] at hx
  have hBne : ((s.dropWhile isJsSpace).reverse).dropWhile isJsSpace ≠ [] := by
    intro hnil
    rw [hnil] at hx
    simp at hx
  obtain ⟨t, ht⟩ := List.dropWhile_suffix (l := (s.dropWhile isJsSpace).reverse) isJsSpace
  have hlast : ((s.dropWhile isJsSpace).reverse).getLast? = some x := by
    rw [← ht, List.getLast?_append_of_ne_nil t hBne]
    exact hx
  rw [List.getLast?_reverse] at hlast
  exact head_dropWhile_false _ _ x hlast

theorem trimChars_eq_self (l : List Char)
    (hhead : ∀ x, l.head? = some x → isJsSpace x = false)
    (hlast : ∀ x, l.getLast? = some x → isJsSpace x = false) :
    trimChars l = l := by
  unfold trimChars
  rw [dropWhile_eq_self_of_head _ _ hhead]
  rw [dropWhile_eq_self_of_head _ _ (fun x hx => hlast x (by rwa [List.head?_reverse] at hx))]
  exact List.reverse_reverse l

theorem mem_of_ciIsPrefix (p : Char) :
    ∀ (pat s : List Char), p ∈ pat → ciIsPrefix pat s = true →
      ∃ c ∈ s, ciEq p c = true := by
  intro pat
  induction pat with
  | nil =>
    intro s hp _
    simp at hp
  | cons q qs ih =>
    intro s hp hpre
    cases s with
    | nil => simp [ciIsPrefix] at hpre
    | cons c cs =>
      simp only [ciIsPrefix, Bool.and_eq_true] at hpre
      rcases List.mem_cons.mp hp with h | h
      · exact ⟨c, List.mem_cons_self c cs, h ▸ hpre.1⟩
      · obtain ⟨c', hc', he⟩ := ih cs h hpre.2
        exact ⟨c', List.mem_cons_of_mem c hc', he⟩

theorem ciEq_colon (c : Char) (h : ciEq ':' c = true) : c = ':' := by
  have hup : upcase ':' = ':' := by decide
  simp only [ciEq, hup, Bool.or_self, beq_iff_eq] at h
  exact of_decide_eq_true h

theorem onMatchLen_has_eq (s : List Char) (k : Nat) (h : onMatchLen s = some k) :
    '=' ∈ s := by
  match s with
  | [] => simp [onMatchLen] at h
  | [c] => simp [onMatchLen] at h
  | c1 :: c2 :: rest =>
    simp only [onMatchLen] at h
    split at h
    · split at h
      · rename_i hk
        have hd := hk.2
        have hmem : '=' ∈ rest.drop (wordRun rest) := by
          cases hdp : rest.drop (wordRun rest) with
          | nil =>
            rw [hdp] at hd
            simp at hd
          | cons x xs =>
            rw [hdp] at hd
            simp only [List.head?_cons, Option.some.injEq] at hd
            rw [hd]
            exact List.mem_cons_self '=' xs
        have hmem' : '=' ∈ rest := List.drop_subset _ _ hmem
        exact List.mem_cons_of_mem _ (List.mem_cons_of_mem _ hmem')
      · exact absurd h (by simp)
    · exact absurd h (by simp)

theorem stripTagsAux_no_lt (s : List Char) (h : '<' ∉ s) : stripTagsAux false s = s := by
  induction s with
  | nil => rfl
  | cons c rest ih =>
    have hc : c ≠ '<' := fun hh => h (hh ▸ List.mem_cons_self c rest)
    simp only [stripTagsAux]
    rw [if_neg (fun hcon => hc hcon.1)]
    rw [ih (fun hm => h (List.mem_cons_of_mem c hm))]

theorem stripJsAux_no_colon (s : List Char) (h : ':' ∉ s) : stripJsAux 0 s = s := by
  induction s with
  | nil => rfl
  | cons c rest ih =>
    simp only [stripJsAux]
    have hpre : ¬ ciIsPrefix jsPat (c :: rest) = true := by
      intro hp
      obtain ⟨c', hc', he⟩ := mem_of_ciIsPrefix ':' jsPat (c :: rest) (by decide) hp
      exact h (ciEq_colon c' he ▸ hc')
    rw [if_neg hpre]
    rw [ih (fun hm => h (List.mem_cons_of_mem c hm))]

theorem stripOnAux_no_eq (s : List Char) (h : '=' ∉ s) : stripOnAux 0 s = s := by
  induction s with
  | nil => rfl
  | cons c rest ih =>
    simp only [stripOnAux]
    have hnone : onMatchLen (c :: rest) = none := by
      cases hm : onMatchLen (c :: rest) with
      | none => rfl
      | some k => exact absurd (onMatchLen_has_eq _ k hm) h
    rw [hnone]
    exact congrArg (fun t => c :: t) (ih (fun hm => h (List.mem_cons_of_mem c hm)))

theorem mem_of_mem_trimChars {c : Char} {s : List Char} (h : c ∈ trimChars s) : c ∈ s := by
  unfold trimChars at h
  rw [List.mem_reverse] at h
  have h1 := (List.dropWhile_suffix isJsSpace).sublist.subset h
  rw [List.mem_reverse] at h1
  exact (List.dropWhile_suffix isJsSpace).sublist.subset h1

theorem sanitizeForUrl_chars (input : String) :
    ∀ c ∈ (sanitizeForUrl input).data, isUrlSafeChar c = true := by
  intro c hc
  unfold sanitizeForUrl at hc
  split at hc
  · simp at hc
  · have hm := mem_of_mem_trimChars hc
    exact (List.mem_filter.mp hm).2

/-- C10: `sanitizeForUrl` is idempotent — its output contains only word
characters, whitespace, hyphens, underscores and dots and is already
trimmed, so none of the pipeline's passes changes it on a second run. -/
theorem C10_sanitizeForUrl_idempotent (input : String) :
    sanitizeForUrl (sanitizeForUrl input) = sanitizeForUrl input := by
  by_cases hin : input = ""
  · rw [hin]
    rfl
  · by_cases hyne : sanitizeForUrl input = ""
    · rw [hyne]
      rfl
    · have hchars : ∀ c ∈ (sanitizeForUrl input).data, isUrlSafeChar c = true :=
        sanitizeForUrl_chars input
      have hsafe : ∀ d : Char, isUrlSafeChar d = false → d ∉ (sanitizeForUrl input).data :=
        fun d hd hm => by
          rw [hchars d hm] at hd
          exact Bool.noConfusion hd
      have htrim : trimChars (sanitizeForUrl input).data = (sanitizeForUrl input).data := by
        conv_lhs => rw [sanitizeForUrl, if_neg hin]
        conv_rhs => rw [sanitizeForUrl, if_neg hin]
        exact trimChars_eq_self _ (trimChars_head _) (trimChars_getLast _)
      have h1 : stripTags (sanitizeForUrl input).data = (sanitizeForUrl input).data :=
        stripTagsAux_no_lt _ (hsafe '<' (by decide))
      have h2 : removeDangerChars (sanitizeForUrl input).data =
          (sanitizeForUrl input).data := by
        apply List.filter_eq_self.mpr
        intro c hc
        cases hmem : dangerChars.contains c
        · rfl
        · have hcd : c ∈ dangerChars := by simpa using hmem
          have hcs := hchars c hc
          fin_cases hcd <;> exact absurd hcs (by decide)
      have h3 : stripJs (sanitizeForUrl input).data = (sanitizeForUrl input).data :=
        stripJsAux_no_colon _ (hsafe ':' (by decide))
      have h4 : stripOn (sanitizeForUrl input).data = (sanitizeForUrl input).data :=
        stripOnAux_no_eq _ (hsafe '=' (by decide))
      have h5 : keepUrlChars (sanitizeForUrl input).data = (sanitizeForUrl input).data :=
        List.filter_eq_self.mpr hchars
      conv_lhs => rw [sanitizeForUrl, if_neg hyne]
      rw [h1, h2, h3, h4, h5, htrim]

end Polly
